import Mathlib

/-!
Verification of the advent-of-code core library against its specification.

Each Rust module is embedded shallowly: structs become structures, `usize`/`u64`
become `Nat` (the programs only ever run on small puzzle inputs, far from any
overflow boundary), `i32` becomes `Int`, fallible operations return
`Option`/`Except`, and loops become recursive functions.  Loops whose
termination measure is not structural are given an explicit fuel argument; the
entry points supply fuel that provably dominates the loop's iteration count, so
the fuel case split never fires on the paths the original program takes.
-/

namespace Advent

/-! ## src/string_scanner.rs -/

/-- Error type of the scanner (`StringScannerError`).  The Rust `NotAUint`
variant also carries a `ParseIntError`; only the position is observable for the
properties below. -/
inductive StringScannerError where
  | UnexpectedString (expected : List Char) (position : Nat)
  | NotAUint (position : Nat)
  | UnexpectedChar (expected : Char) (position : Nat)
deriving DecidableEq, Repr

/-- `StringScanner`: a cursor over a materialized character sequence. -/
structure StringScanner where
  current_position : Nat
  chars : List Char
deriving DecidableEq, Repr

/-- `StringScanner::new`: start at position 0 over the characters of the
source. -/
def StringScanner.new (source : List Char) : StringScanner :=
  { current_position := 0, chars := source }

/-- `StringScanner::is_finished`. -/
def StringScanner.is_finished (s : StringScanner) : Bool :=
  s.current_position ≥ s.chars.length

/-- `StringScanner::peek`. -/
def StringScanner.peek (s : StringScanner) : Option Char :=
  if s.is_finished then none else s.chars.get? s.current_position

/-- `StringScanner::peek_forward`. -/
def StringScanner.peek_forward (s : StringScanner) (n : Nat) : Option Char :=
  if s.current_position + n ≥ s.chars.length then none
  else s.chars.get? (s.current_position + n)

/-- The loop body of `StringScanner::peek_string`: compare the characters of
`other` (starting at offset `i` of the enumeration) against
`peek_forward`. -/
def peekStringAux (s : StringScanner) : List Char → Nat → Bool
  | [], _ => true
  | otherChar :: rest, i =>
    match s.peek_forward i with
    | some thisChar => if thisChar = otherChar then peekStringAux s rest (i + 1) else false
    | none => false

/-- `StringScanner::peek_string`. -/
def StringScanner.peek_string (s : StringScanner) (other : List Char) : Bool :=
  peekStringAux s other 0

/-- `StringScanner::advance`. -/
def StringScanner.advance (s : StringScanner) : StringScanner :=
  if s.is_finished then s else { s with current_position := s.current_position + 1 }

/-- `StringScanner::advance_by`: add `n`, clamping at the end of the source. -/
def StringScanner.advance_by (s : StringScanner) (n : Nat) : StringScanner :=
  let p := s.current_position + n
  if p > s.chars.length then { s with current_position := s.chars.length }
  else { s with current_position := p }

/-- `str::len` of Rust: the UTF-8 byte length of the text, which is what
`match_string` passes to `advance_by`. -/
def strByteLen (l : List Char) : Nat :=
  (l.map Char.utf8Size).sum

/-- `StringScanner::match_char`: returns the Rust boolean together with the
mutated scanner. -/
def StringScanner.match_char (s : StringScanner) (c : Char) : Bool × StringScanner :=
  match s.peek with
  | some d => if c = d then (true, s.advance) else (false, s)
  | none => (false, s)

/-- `StringScanner::match_string`: on success advances by `other.len()`, the
byte length of the literal. -/
def StringScanner.match_string (s : StringScanner) (other : List Char) : Bool × StringScanner :=
  if s.peek_string other then (true, s.advance_by (strByteLen other))
  else (false, s)

/-- The `while` loop of `StringScanner::read_while`, with explicit fuel.  The
entry point passes `s.chars.length - s.current_position`, which dominates the
number of iterations because every iteration advances the cursor by one and the
loop stops at the end of the source. -/
def readWhileAux (f : Char → Bool) : Nat → StringScanner → List Char → List Char × StringScanner
  | 0, s, acc => (acc, s)
  | fuel + 1, s, acc =>
    if s.is_finished then (acc, s)
    else
      match s.peek with
      | some c => if f c then readWhileAux f fuel s.advance (acc ++ [c]) else (acc, s)
      | none => (acc, s)

/-- `StringScanner::read_while`. -/
def StringScanner.read_while (s : StringScanner) (f : Char → Bool) : List Char × StringScanner :=
  readWhileAux f (s.chars.length - s.current_position) s []

/-- `u64::from_str` (and the other unsigned `from_str` impls) restricted to
strings made of ASCII digits, as produced by `read_while(is_ascii_digit)`:
fails on the empty string and on values outside the type's range; `bound` is
the exclusive upper end of the range. -/
def fromStrUnsigned (bound : Nat) (digits : List Char) : Option Nat :=
  if digits.isEmpty then none
  else
    let v := digits.foldl (fun acc c => acc * 10 + (c.toNat - '0'.toNat)) 0
    if v < bound then some v else none

/-- `StringScanner::expect_uint::<T>`, where `bound` is the exclusive upper end
of `T`'s range. -/
def StringScanner.expect_uint (s : StringScanner) (bound : Nat) :
    Except StringScannerError Nat × StringScanner :=
  let r := s.read_while (fun c => c.isDigit)
  match fromStrUnsigned bound r.1 with
  | some x => (Except.ok x, r.2)
  | none => (Except.error (StringScannerError.NotAUint r.2.current_position), r.2)

/-! ## src/grid.rs -/

/-- The 8-way `Direction` enum of `grid.rs`. -/
inductive Dir8 where
  | NorthWest | North | NorthEast | West | East | SouthWest | South | SouthEast
deriving DecidableEq, Repr

/-- `Direction::all`, in declaration order. -/
def Dir8.all : List Dir8 :=
  [.NorthWest, .North, .NorthEast, .West, .East, .SouthWest, .South, .SouthEast]

/-- `Point` of `grid.rs`. -/
structure Point where
  x : Nat
  y : Nat
deriving DecidableEq, Repr

/-- `Grid(width, height)`. -/
structure Grid where
  width : Nat
  height : Nat
deriving DecidableEq, Repr

/-- `Grid::to_point`. -/
def Grid.to_point (g : Grid) (idx : Nat) : Point :=
  { x := idx % g.width, y := idx / g.width }

/-- `Grid::to_index`. -/
def Grid.to_index (g : Grid) (p : Point) : Nat :=
  p.y * g.width + p.x

/-- `Grid::neighbour`: the guarded match of the source, arm by arm. -/
def Grid.neighbour (g : Grid) (idx : Nat) (d : Dir8) : Option Nat :=
  let p := g.to_point idx
  let x := p.x
  let y := p.y
  let max_x := g.width - 1
  let max_y := g.height - 1
  match d with
  | .North => if y > 0 then some (g.to_index ⟨x, y - 1⟩) else none
  | .South => if y < max_y then some (g.to_index ⟨x, y + 1⟩) else none
  | .West => if x > 0 then some (g.to_index ⟨x - 1, y⟩) else none
  | .East => if x < max_x then some (g.to_index ⟨x + 1, y⟩) else none
  | .NorthWest => if x > 0 ∧ y > 0 then some (g.to_index ⟨x - 1, y - 1⟩) else none
  | .NorthEast => if x < max_x ∧ y > 0 then some (g.to_index ⟨x + 1, y - 1⟩) else none
  | .SouthWest => if x > 0 ∧ y < max_y then some (g.to_index ⟨x - 1, y + 1⟩) else none
  | .SouthEast => if x < max_x ∧ y < max_y then some (g.to_index ⟨x + 1, y + 1⟩) else none

/-- `Grid::neighbours`: filter-map `neighbour` over `Direction::all`. -/
def Grid.neighbours (g : Grid) (idx : Nat) : List Nat :=
  Dir8.all.filterMap (fun d => g.neighbour idx d)

/-- `Grid::len`. -/
def Grid.len (g : Grid) : Nat := g.width * g.height

/-! Specification-side view of one grid step, for comparison with
`Grid.neighbour`: a direction is an offset in ℤ², and a step is legal exactly
when the offset target stays inside the bounds on both axes. -/

/-- The unit offset (dx, dy) a compass direction denotes (x grows east, y grows
south). -/
def dirOffset : Dir8 → Int × Int
  | .NorthWest => (-1, -1)
  | .North => (0, -1)
  | .NorthEast => (1, -1)
  | .West => (-1, 0)
  | .East => (1, 0)
  | .SouthWest => (-1, 1)
  | .South => (0, 1)
  | .SouthEast => (1, 1)

/-- Specification-side neighbour: `none` exactly when the one-cell step leaves
the grid bounds, otherwise the flat index of the adjacent cell. -/
def specNeighbour (g : Grid) (idx : Nat) (d : Dir8) : Option Nat :=
  let x : Int := (idx % g.width : Nat)
  let y : Int := (idx / g.width : Nat)
  let o := dirOffset d
  let nx := x + o.1
  let ny := y + o.2
  if 0 ≤ nx ∧ nx < (g.width : Int) ∧ 0 ≤ ny ∧ ny < (g.height : Int) then
    some (ny.toNat * g.width + nx.toNat)
  else none

/-! ## src/y2023/d01.rs -/

namespace D01

/-- The static `TOKENS_AND_VALUES` table, in source order: the ten number words
followed by the ten digit characters. -/
def tokensAndValues : List (List Char × Nat) :=
  [("zero".toList, 0), ("one".toList, 1), ("two".toList, 2), ("three".toList, 3),
   ("four".toList, 4), ("five".toList, 5), ("six".toList, 6), ("seven".toList, 7),
   ("eight".toList, 8), ("nine".toList, 9),
   ("0".toList, 0), ("1".toList, 1), ("2".toList, 2), ("3".toList, 3), ("4".toList, 4),
   ("5".toList, 5), ("6".toList, 6), ("7".toList, 7), ("8".toList, 8), ("9".toList, 9)]

/-- The inner `for` loop of `DigitExtractor::next`: the first table entry whose
token matches at the cursor, if any. -/
def findTokenValue (chars : List Char) (pos : Nat) : Option Nat :=
  tokensAndValues.findSome? fun tv =>
    if (StringScanner.mk pos chars).peek_string tv.1 then some tv.2 else none

/-- Collecting the `DigitExtractor` iterator: the outer `while` loop, with the
scanner state as (chars, pos) and fuel `chars.length - pos`, which dominates
the iteration count because the cursor advances by one each round. -/
def digitsAux (chars : List Char) : Nat → Nat → List Nat
  | 0, _ => []
  | fuel + 1, pos =>
    if pos < chars.length then
      match findTokenValue chars pos with
      | some v => v :: digitsAux chars fuel (pos + 1)
      | none => digitsAux chars fuel (pos + 1)
    else []

/-- `extract_digits_with_words`, collected to a list. -/
def extract_digits_with_words (line : List Char) : List Nat :=
  digitsAux line line.length 0

/-- `extract_digits_no_words`, collected to a list. -/
def extract_digits_no_words (line : List Char) : List Nat :=
  (line.filter (fun c => c.isDigit)).map (fun c => c.toNat - '0'.toNat)

/-- `extract_number`: the first/last accumulation loop over the digit
iterator, then `first.map_or(0, |x| x * 10 + last)`. -/
def extract_number (line : List Char) (include_words : Bool) : Nat :=
  let all_digits := if include_words then extract_digits_with_words line
                    else extract_digits_no_words line
  let acc := all_digits.foldl
    (fun (st : Option Nat × Nat) digit =>
      ((if st.1.isNone then some digit else st.1), digit))
    (none, 0)
  match acc.1 with
  | none => 0
  | some x => x * 10 + acc.2

/-- Specification-side digit extraction, structurally on the unread suffix:
emit the first matching token's value and advance by exactly one character,
or advance by one when nothing matches. -/
def digitsSpec : List Char → List Nat
  | [] => []
  | c :: rest =>
    match tokensAndValues.findSome? (fun tv =>
        if tv.1.isPrefixOf (c :: rest) then some tv.2 else none) with
    | some v => v :: digitsSpec rest
    | none => digitsSpec rest

end D01

/-! ## src/y2023/d05.rs -/

namespace D05

/-- `ValueMapRange`. -/
structure ValueMapRange where
  destination_start : Nat
  source_start : Nat
  source_length : Nat
deriving DecidableEq, Repr

/-- `ValueMapRange::map_value`: translate when `value` lies in
`[source_start, source_start + source_length)`. -/
def ValueMapRange.map_value (r : ValueMapRange) (value : Nat) : Option Nat :=
  let e := r.source_start + r.source_length
  if r.source_start ≤ value ∧ value < e then
    some (r.destination_start + (value - r.source_start))
  else none

/-- `ValueMap`: one remap table, a list of ranges in source order. -/
structure ValueMap where
  ranges : List ValueMapRange
deriving DecidableEq, Repr

/-- `ValueMap::map_value`: `find_map` over the ranges, identity fallback. -/
def ValueMap.map_value (m : ValueMap) (value : Nat) : Nat :=
  (m.ranges.findSome? (fun r => r.map_value value)).getD value

/-- The pipeline part of `Almanac` (the seed fields play no role in the
mapping claims). -/
structure Almanac where
  value_maps : List ValueMap
deriving DecidableEq, Repr

/-- `Almanac::calculate_location`: left-to-right fold of the per-table map. -/
def Almanac.calculate_location (a : Almanac) (value : Nat) : Nat :=
  a.value_maps.foldl (fun acc m => m.map_value acc) value

/-- Specification-side per-table mapping: find the first range (source order)
whose source interval contains the value and translate by its offset; pass the
value through unchanged when no range contains it. -/
def mapValueSpec (m : ValueMap) (value : Nat) : Nat :=
  match m.ranges.find? (fun r =>
      decide (r.source_start ≤ value ∧ value < r.source_start + r.source_length)) with
  | some r => r.destination_start + (value - r.source_start)
  | none => value

end D05

/-! ## src/y2023/d06.rs -/

namespace D06

/-- `calculate_distance`: speed `hold_time` for the remaining
`total_time - hold_time`. -/
def calculate_distance (total_time hold_time : Nat) : Nat :=
  if hold_time ≤ total_time then hold_time * (total_time - hold_time) else 0

/-- The scanning loop of `num_ways_to_win`, with fuel: the entry point passes
`total_time`, which dominates the iteration count since `hold_time` starts at 0
and the loop stops before `total_time`. -/
def numWaysAux (total_time distance_to_beat : Nat) : Nat → Nat → Nat
  | 0, _ => 0
  | fuel + 1, hold_time =>
    if hold_time < total_time then
      if calculate_distance total_time hold_time > distance_to_beat then
        total_time - 2 * hold_time + 1
      else numWaysAux total_time distance_to_beat fuel (hold_time + 1)
    else 0

/-- `num_ways_to_win`: scan hold times from 0. -/
def num_ways_to_win (total_time distance_to_beat : Nat) : Nat :=
  numWaysAux total_time distance_to_beat total_time 0

/-- The set the claim counts: hold times in `[0, total_time)` whose distance
strictly beats the target. -/
def winningHolds (total_time distance_to_beat : Nat) : Finset Nat :=
  (Finset.range total_time).filter
    (fun h => distance_to_beat < h * (total_time - h))

end D06

/-! ## src/y2023/d07.rs -/

namespace D07

/-- `Label`, in the declaration order that `derive(Ord)` ranks by. -/
inductive Label where
  | Two | Three | Four | Five | Six | Seven | Eight | Nine | Ten
  | Jack | Queen | King | Ace
deriving DecidableEq, Repr

/-- The rank a label's position in the declaration order gives it; `derive(Ord)`
compares by this. -/
def Label.rank : Label → Nat
  | .Two => 0 | .Three => 1 | .Four => 2 | .Five => 3 | .Six => 4
  | .Seven => 5 | .Eight => 6 | .Nine => 7 | .Ten => 8
  | .Jack => 9 | .Queen => 10 | .King => 11 | .Ace => 12

/-- `Label::cmp` from `derive(Ord)`. -/
def Label.cmp (a b : Label) : Ordering := compare a.rank b.rank

/-- `Label::is_joker`. -/
def Label.is_joker (l : Label) : Bool := l = Label.Jack

/-- `Label::non_jokers`, in source order. -/
def Label.non_jokers : List Label :=
  [.Two, .Three, .Four, .Five, .Six, .Seven, .Eight, .Nine, .Ten,
   .Queen, .King, .Ace]

/-- `Label::joker_cmp`: like `cmp` but the wildcard sorts lowest. -/
def Label.joker_cmp (a b : Label) : Ordering :=
  if a = b then .eq
  else if a = Label.Jack then .lt
  else if b = Label.Jack then .gt
  else a.cmp b

/-- `HandType`, in the declaration order that `derive(Ord)` ranks by. -/
inductive HandType where
  | HighCard | OnePair | TwoPair | ThreeOfAKind | FullHouse | FourOfAKind
  | FiveOfAKind
deriving DecidableEq, Repr

/-- The rank of a hand category in declaration order. -/
def HandType.rank : HandType → Nat
  | .HighCard => 0 | .OnePair => 1 | .TwoPair => 2 | .ThreeOfAKind => 3
  | .FullHouse => 4 | .FourOfAKind => 5 | .FiveOfAKind => 6

/-- `Ord::max` on `HandType` (by declaration order). -/
def htMax (a b : HandType) : HandType := if a.rank ≤ b.rank then b else a

/-- Stable insertion of `x` into `l` by comparator `cmp`: `x` lands before the
first strictly greater element, after equal ones. -/
def insertCmp {α : Type} (cmp : α → α → Ordering) (x : α) : List α → List α
  | [] => [x]
  | y :: ys => if cmp x y = Ordering.lt then x :: y :: ys else y :: insertCmp cmp x ys

/-- Stable sort by a comparator (models `slice::sort_by`, which Rust documents
as stable; a stable sort by a total comparator has a unique result). -/
def sortByCmp {α : Type} (cmp : α → α → Ordering) (l : List α) : List α :=
  l.foldl (fun acc x => insertCmp cmp x acc) []

/-- A hand is its list of five labels (`Hand([Label; 5])`). -/
def Hand := List Label

/-- `Hand::hand_type`: sort the multiset of per-label counts ascending and
classify on the top count (with the sub-cases of the source `match`). -/
def hand_type (h : List Label) : HandType :=
  let counts := sortByCmp compare ((h.dedup).map (fun l => h.count l))
  match counts.getLast? with
  | some 5 => .FiveOfAKind
  | some 4 => .FourOfAKind
  | some 3 => if counts.head? = some 2 then .FullHouse else .ThreeOfAKind
  | some 2 => if counts.length = 3 then .TwoPair else .OnePair
  | _ => .HighCard

/-- `Hand::replaced`. -/
def replaced (h : List Label) (i : Nat) (new_label : Label) : List Label :=
  h.set i new_label

/-- `Iterator::position`: index of the first element satisfying `p`. -/
def position (p : Label → Bool) : List Label → Option Nat
  | [] => none
  | c :: rest => if p c then some 0 else (position p rest).map (fun n => n + 1)

/-- Worklist measure: `13 ^ (number of wildcards)` summed over the list.  Each
iteration of the worklist loop strictly decreases it, so it bounds the number
of iterations. -/
def wlMeasure (wl : List (List Label)) : Nat :=
  (wl.map (fun h => 13 ^ (h.count Label.Jack))).sum

/-- The `while let` worklist loop of `Hand::possible_hands`.  The Rust `Vec` is
kept top-of-stack-first (`push` = cons, `pop` = uncons); the `for` loop that
pushes the twelve replacements is the `foldl` of conses.  Fuel: the entry point
passes `wlMeasure` of the initial worklist, which dominates the iteration
count. -/
def expandLoop : Nat → List (List Label) → List (List Label) → List (List Label)
  | 0, _, concrete => concrete
  | fuel + 1, wl, concrete =>
    match wl with
    | [] => concrete
    | hand :: rest =>
      match position (fun l => l.is_joker) hand with
      | some i =>
        expandLoop fuel
          (Label.non_jokers.foldl (fun acc l => replaced hand i l :: acc) rest) concrete
      | none => expandLoop fuel rest (concrete ++ [hand])

/-- `Hand::possible_hands`. -/
def possible_hands (h : List Label) : List (List Label) :=
  expandLoop (wlMeasure [h]) [h] []

/-- `Hand::best_hand_type`: maximum category over the possible hands,
`HighCard` (the `Default`) if there are none. -/
def best_hand_type (h : List Label) : HandType :=
  ((possible_hands h).map hand_type).foldl htMax HandType.HighCard

/-- Specification-side wildcard expansion: the cartesian substitution of every
wildcard position by every non-wildcard label. -/
def substitutions : List Label → List (List Label)
  | [] => [[]]
  | c :: rest =>
    if c.is_joker then
      Label.non_jokers.flatMap (fun l => (substitutions rest).map (fun t => l :: t))
    else (substitutions rest).map (fun t => c :: t)

/-- `CompareType`. -/
inductive CompareType where
  | Basic | Joker
deriving DecidableEq, Repr

/-- The per-position label comparison loop of `CompareType::compare_hands`. -/
def cmpLabels (ct : CompareType) : List Label → List Label → Ordering
  | [], _ => .eq
  | _ :: _, [] => .eq
  | a :: restA, b :: restB =>
    match (match ct with | .Basic => a.cmp b | .Joker => a.joker_cmp b) with
    | .eq => cmpLabels ct restA restB
    | x => x

/-- `CompareType::compare_hands`: category first, then labels position by
position. -/
def CompareType.compare_hands (ct : CompareType) (h1 h2 : List Label) : Ordering :=
  let tc := match ct with
    | .Basic => compare (hand_type h1).rank (hand_type h2).rank
    | .Joker => compare (best_hand_type h1).rank (best_hand_type h2).rank
  match tc with
  | .eq => cmpLabels ct h1 h2
  | y => y

/-- `HandWithBid`. -/
structure HandWithBid where
  hand : List Label
  bid : Nat
deriving DecidableEq, Repr

/-- `HandsWithBids::total_score`: sort by the chosen comparison, then sum
`rank * bid` with rank = 1-based sorted position. -/
def total_score (ct : CompareType) (hands : List HandWithBid) : Nat :=
  let sorted := sortByCmp (fun a b => ct.compare_hands a.hand b.hand) hands
  (sorted.enum.map (fun p => (p.1 + 1) * p.2.bid)).sum

/-- The five-hand sample set of the spec and the tests, with its bids. -/
def sampleHands : List HandWithBid :=
  [⟨[.Three, .Two, .Ten, .Three, .King], 765⟩,
   ⟨[.Ten, .Five, .Five, .Jack, .Five], 684⟩,
   ⟨[.King, .King, .Six, .Seven, .Seven], 28⟩,
   ⟨[.King, .Ten, .Jack, .Jack, .Ten], 220⟩,
   ⟨[.Queen, .Queen, .Queen, .Jack, .Ace], 483⟩]

end D07

/-! ## src/y2023/d08.rs -/

namespace D08

/-- The left/right `Direction` enum of d08. -/
inductive Direction where
  | Right | Left
deriving DecidableEq, Repr

/-- `Node`: the two fixed outgoing edges. -/
structure Node where
  left : String
  right : String
deriving DecidableEq, Repr

/-- `Node::next_node_id`. -/
def Node.next_node_id (n : Node) : Direction → String
  | .Left => n.left
  | .Right => n.right

/-- `Map`: instruction sequence plus the node table (the `HashMap` keyed by
node id becomes an association list; `get` is first-match lookup). -/
structure Map where
  directions : List Direction
  nodes : List (String × Node)
deriving DecidableEq, Repr

/-- `HashMap::get` on the node table. -/
def Map.lookupNode (m : Map) (id : String) : Option Node :=
  (m.nodes.find? (fun p => p.1 = id)).map Prod.snd

/-- One iteration of the walker: take the instruction at `idx` of the cycled
sequence and follow that edge.  `none` models the `unwrap` panics (empty
instruction list, unknown node id). -/
def stepOnce (m : Map) (cur : String) (idx : Nat) : Option String := do
  let dir ← m.directions.get? (idx % m.directions.length)
  let node ← m.lookupNode cur
  pure (node.next_node_id dir)

/-- The walker loop of `Map::calculate_distance`: step, count, test the
predicate on the node just reached.  Fuel bounds how long we are willing to
run the (possibly diverging) source loop; `none` means it did not finish
within the fuel. -/
def calcDistAux (m : Map) (pred : String → Bool) :
    Nat → String → Nat → Nat → Option Nat
  | 0, _, _, _ => none
  | fuel + 1, cur, idx, steps =>
    match stepOnce m cur idx with
    | none => none
    | some nxt =>
      if pred nxt then some (steps + 1)
      else calcDistAux m pred fuel nxt (idx + 1) (steps + 1)

/-- `Map::calculate_distance`, fuel-indexed. -/
def calculate_distance (m : Map) (fuel : Nat) (start_id : String)
    (pred : String → Bool) : Option Nat :=
  calcDistAux m pred fuel start_id 0 0

/-- Specification-side walk: the node reached after `k` steps when the first
step uses instruction index `idx` of the cycled sequence. -/
def walkIdx (m : Map) : String → Nat → Nat → Option String
  | cur, _, 0 => some cur
  | cur, idx, k + 1 => do
    let nxt ← stepOnce m cur idx
    walkIdx m nxt (idx + 1) k

/-- Specification-side walk from the start of the instruction sequence. -/
def walkN (m : Map) (start_id : String) (k : Nat) : Option String :=
  walkIdx m start_id 0 k

/-- The `simple_map` of the d08 tests. -/
def simpleMap : Map :=
  { directions := [.Right, .Left],
    nodes := [("AAA", ⟨"BBB", "CCC"⟩), ("CCC", ⟨"ZZZ", "GGG"⟩)] }

end D08

/-! ## src/y2023/d09.rs -/

namespace D09

/-- `deltas`' mapping loop: `current` holds the previous element. -/
def deltasGo (current : Int) : List Int → List Int
  | [] => []
  | n :: ns => (n - current) :: deltasGo n ns

/-- `deltas`: forward differences (empty input gives the empty list). -/
def deltas : List Int → List Int
  | [] => []
  | x :: rest => deltasGo x rest

/-- `all_zero`. -/
def all_zero (nums : List Int) : Bool := nums.all (fun n => n = 0)

/-- The first loop of `Sequence::expand_once`: push difference rows at the
front of the deque until the front row is all zero.  Fuel: each iteration
shortens the front row by one (a non-all-zero row is nonempty), so
`front.length + 1` at the entry dominates the iteration count and the fuel-0
arm is never taken from the entry point. -/
def buildPyramid : Nat → List Int → List (List Int) → List (List Int)
  | 0, front, rest => front :: rest
  | fuel + 1, front, rest =>
    if all_zero front then front :: rest
    else buildPyramid fuel (deltas front) (front :: rest)

/-- The second loop of `Sequence::expand_once`: pop the top two rows, extend
the lower one by `inner-front - this-front` at the front and
`inner-back + this-back` at the back, push it back; `none` models the
`CoreResult` errors on empty rows or an empty deque.  Fuel: the deque shrinks
by one per iteration, so its length at the entry dominates the iteration
count. -/
def unwind : Nat → List (List Int) → Option (List Int)
  | _, [] => none
  | _, [single] => some single
  | 0, _ :: _ :: _ => none
  | fuel + 1, top :: bottom :: rest => do
    let topFirst ← top.head?
    let bottomFirst ← bottom.head?
    let topLast ← top.getLast?
    let bottomLast ← bottom.getLast?
    unwind fuel (((bottomFirst - topFirst) :: (bottom ++ [bottomLast + topLast])) :: rest)

/-- `Sequence::expand_once` on the underlying list. -/
def expand_once (nums : List Int) : Option (List Int) :=
  let pyramid := buildPyramid (nums.length + 1) nums []
  unwind pyramid.length pyramid

end D09

/-! ## src/y2023/d11.rs -/

namespace D11

/-- `Universe`: grid dimensions plus galaxy coordinates. -/
structure Universe where
  grid : Grid
  galaxies : List Point
deriving DecidableEq, Repr

/-- `Universe::add_column`: shift every galaxy at or right of column `x`. -/
def Universe.add_column (u : Universe) (x delta : Nat) : Universe :=
  { u with galaxies := u.galaxies.map (fun g =>
      if g.x ≥ x then { g with x := g.x + delta } else g) }

/-- `Universe::add_row`: shift every galaxy at or below row `y`. -/
def Universe.add_row (u : Universe) (y delta : Nat) : Universe :=
  { u with galaxies := u.galaxies.map (fun g =>
      if g.y ≥ y then { g with y := g.y + delta } else g) }

/-- `Universe::expand`.  Note the source computes both the empty-column and the
empty-row list by scanning `0..self.grid.width()`. -/
def Universe.expand (u : Universe) (factor : Nat) : Universe :=
  let columns := (List.range u.grid.width).filter
    (fun x => ¬ u.galaxies.any (fun p => p.x = x))
  let rows := (List.range u.grid.width).filter
    (fun y => ¬ u.galaxies.any (fun p => p.y = y))
  if factor = 0 then u
  else
    let delta := factor - 1
    let u1 := columns.reverse.foldl (fun acc x => acc.add_column x delta) u
    let u2 := rows.reverse.foldl (fun acc y => acc.add_row y delta) u1
    { u2 with grid := Grid.mk (columns.length * delta + u.grid.width)
                              (rows.length * delta + u.grid.height) }

/-- `get_shortest_distance`: Manhattan distance. -/
def get_shortest_distance (p1 p2 : Point) : Nat :=
  (if p1.x > p2.x then p1.x - p2.x else p2.x - p1.x) +
  (if p1.y > p2.y then p1.y - p2.y else p2.y - p1.y)

/-- The double loop of `Universe::sum_of_shortest_paths`: each galaxy is
paired with the galaxies after it. -/
def sumPairs : List Point → Nat
  | [] => 0
  | g :: rest => (rest.map (fun g2 => get_shortest_distance g g2)).sum + sumPairs rest

/-- `Universe::sum_of_shortest_paths`. -/
def Universe.sum_of_shortest_paths (u : Universe) : Nat :=
  sumPairs u.galaxies

end D11

/-! ## Helper lemmas -/

/-- `peek_string` compared from offset `i` is prefix-of on the suffix of the
source that starts `i` past the cursor. -/
theorem peekStringAux_eq (s : StringScanner) (other : List Char) (i : Nat) :
    peekStringAux s other i
      = other.isPrefixOf (s.chars.drop (s.current_position + i)) := by
  induction other generalizing i with
  | nil => simp [peekStringAux, List.isPrefixOf]
  | cons c rest ih =>
    simp only [peekStringAux, StringScanner.peek_forward]
    by_cases h : s.current_position + i ≥ s.chars.length
    · have hdrop : s.chars.drop (s.current_position + i) = [] :=
        List.drop_eq_nil_of_le h
      simp [h, hdrop, List.isPrefixOf]
    · push_neg at h
      have hdrop : s.chars.drop (s.current_position + i)
          = s.chars[s.current_position + i] :: s.chars.drop (s.current_position + i + 1) :=
        List.drop_eq_getElem_cons h
      have hget : s.chars.get? (s.current_position + i)
          = some s.chars[s.current_position + i] := by
        simp [List.get?_eq_getElem?, List.getElem?_eq_getElem h]
      rw [hdrop]
      simp only [if_neg (by omega : ¬ s.current_position + i ≥ s.chars.length), hget,
        List.isPrefixOf]
      by_cases hc : s.chars[s.current_position + i] = c
      · have := ih (i + 1)
        simp only [hc, if_pos rfl]
        rw [this]
        have : s.current_position + (i + 1) = s.current_position + i + 1 := by omega
        rw [this]
        simp [List.isPrefixOf]
      · simp [hc, beq_iff_eq, Ne.symm hc]

/-- `peek_string` is prefix-of on the unread suffix. -/
theorem peek_string_eq (s : StringScanner) (other : List Char) :
    s.peek_string other = other.isPrefixOf (s.chars.drop s.current_position) := by
  have := peekStringAux_eq s other 0
  simpa [StringScanner.peek_string] using this

/-- `findSome?` only depends on the values of the function on the list. -/
theorem findSome?_congr {α β : Type} (f g : α → Option β) (l : List α)
    (h : ∀ a ∈ l, f a = g a) : l.findSome? f = l.findSome? g := by
  induction l with
  | nil => rfl
  | cons a as ih =>
    have ha := h a (by simp)
    have hrest : ∀ a ∈ as, f a = g a := fun x hx => h x (by simp [hx])
    simp only [List.findSome?_cons, ha, ih hrest]

/-! ## Claim C1 -/

/-- C1: the claim says that after `match_literal(p)` the cursor equals the
character count of `p` for every prefix `p` of the source.  The code
contradicts this: `match_string` advances by `other.len()`, the UTF-8 byte
length.  On source `"éa"` with prefix `"é"` (one character, two bytes),
`peek_literal` holds at cursor 0 but `match_literal` leaves the cursor at 2,
not at 1, so the scanner has skipped the character `'a'`. -/
theorem claim_C1_code_bug :
    (StringScanner.new ['é', 'a']).peek_string ['é'] = true ∧
    ((StringScanner.new ['é', 'a']).match_string ['é']).2.current_position = 2 ∧
    (['é'] : List Char).length = 1 ∧
    ((StringScanner.new ['é', 'a']).match_string ['é']).2.peek = none := by
  refine ⟨by decide, by decide, by decide, by decide⟩

/-! ## Claim C2 -/

/-- C2: the claim says `expand` shifts a marked point's `y` by `(m - 1)` for
every empty row strictly before it.  The code scans rows only in
`0..width`, so on a 1-wide, 3-tall universe with marks at `(0,0)` and `(0,2)`
the empty row `y = 1` is never found: `expand 2` moves nothing and the pair
sum stays 2, while the claim requires the second mark to move to `(0,3)` and
the sum to be 3. -/
theorem claim_C2_code_bug :
    (D11.Universe.expand ⟨⟨1, 3⟩, [⟨0, 0⟩, ⟨0, 2⟩]⟩ 2).galaxies = [⟨0, 0⟩, ⟨0, 2⟩] ∧
    (D11.Universe.expand ⟨⟨1, 3⟩, [⟨0, 0⟩, ⟨0, 2⟩]⟩ 2).sum_of_shortest_paths = 2 ∧
    ([Point.mk 0 0, Point.mk 0 2].all (fun p => p.y ≠ 1)) = true ∧
    D11.get_shortest_distance ⟨0, 0⟩ ⟨0, 3⟩ = 3 := by
  refine ⟨by decide, by decide, by decide, by decide⟩

/-! ## Claim C3 -/

/-- The per-table map agrees with the first-match specification. -/
theorem mapValue_eq_spec (m : D05.ValueMap) (v : Nat) :
    m.map_value v = D05.mapValueSpec m v := by
  obtain ⟨rs⟩ := m
  induction rs with
  | nil => rfl
  | cons r rs ih =>
    by_cases h : r.source_start ≤ v ∧ v < r.source_start + r.source_length
    · simp [D05.ValueMap.map_value, D05.mapValueSpec, List.findSome?_cons,
        List.find?_cons, D05.ValueMapRange.map_value, h]
    · have hd : decide (r.source_start ≤ v ∧ v < r.source_start + r.source_length) = false := by
        simp [h]
      simp only [D05.ValueMap.map_value, D05.mapValueSpec, List.findSome?_cons,
        List.find?_cons, D05.ValueMapRange.map_value, if_neg h, hd]
      simpa [D05.ValueMap.map_value, D05.mapValueSpec] using ih

/-- C3: mapping a value through one remap table returns
`destination_start + (v - source_start)` for the first range in source order
whose source interval contains `v`, and `v` when no range contains it; an
almanac maps by folding the tables left to right; and the single range
(dest 50, src 98, len 2) maps 97 to 97, 98 to 50, 99 to 51 and 100 to 100. -/
theorem claim_C3 :
    (∀ (m : D05.ValueMap) (v : Nat), m.map_value v = D05.mapValueSpec m v) ∧
    (∀ (maps : List D05.ValueMap) (m : D05.ValueMap) (v : Nat),
      (D05.Almanac.mk (m :: maps)).calculate_location v
        = (D05.Almanac.mk maps).calculate_location (m.map_value v)) ∧
    (D05.ValueMap.mk [⟨50, 98, 2⟩]).map_value 97 = 97 ∧
    (D05.ValueMap.mk [⟨50, 98, 2⟩]).map_value 98 = 50 ∧
    (D05.ValueMap.mk [⟨50, 98, 2⟩]).map_value 99 = 51 ∧
    (D05.ValueMap.mk [⟨50, 98, 2⟩]).map_value 100 = 100 := by
  refine ⟨mapValue_eq_spec, fun maps m v => rfl, by decide, by decide, by decide, by decide⟩

/-! ## Claim C4 -/

/-- The scanner-based digit extraction loop equals the suffix-structural
specification: `chars.length - pos` fuel always suffices. -/
theorem digitsAux_eq_spec (chars : List Char) (fuel pos : Nat)
    (hfuel : chars.length - pos ≤ fuel) :
    D01.digitsAux chars fuel pos = D01.digitsSpec (chars.drop pos) := by
  induction fuel generalizing pos with
  | zero =>
    have : chars.drop pos = [] := List.drop_eq_nil_of_le (by omega)
    simp [D01.digitsAux, this, D01.digitsSpec]
  | succ fuel ih =>
    by_cases h : pos < chars.length
    · have hdrop : chars.drop pos = chars[pos] :: chars.drop (pos + 1) :=
        List.drop_eq_getElem_cons h
      have hfind : D01.findTokenValue chars pos
          = D01.tokensAndValues.findSome? (fun tv =>
              if tv.1.isPrefixOf (chars.drop pos) then some tv.2 else none) := by
        apply findSome?_congr
        intro tv _
        rw [peek_string_eq]
      have hspec : D01.digitsSpec (chars.drop pos)
          = match D01.tokensAndValues.findSome? (fun tv =>
                if tv.1.isPrefixOf (chars.drop pos) then some tv.2 else none) with
            | some v => v :: D01.digitsSpec (chars.drop (pos + 1))
            | none => D01.digitsSpec (chars.drop (pos + 1)) := by
        conv_lhs => rw [hdrop]
        rw [show D01.digitsSpec (chars[pos] :: chars.drop (pos + 1))
            = match D01.tokensAndValues.findSome? (fun tv =>
                  if tv.1.isPrefixOf (chars[pos] :: chars.drop (pos + 1)) then some tv.2
                  else none) with
              | some v => v :: D01.digitsSpec (chars.drop (pos + 1))
              | none => D01.digitsSpec (chars.drop (pos + 1)) from rfl]
        rw [← hdrop]
      rw [hspec, ← hfind]
      rw [show D01.digitsAux chars (fuel + 1) pos
          = if pos < chars.length then
              match D01.findTokenValue chars pos with
              | some v => v :: D01.digitsAux chars fuel (pos + 1)
              | none => D01.digitsAux chars fuel (pos + 1)
            else [] from rfl]
      rw [if_pos h, ih (pos + 1) (by omega)]
    · have hdrop : chars.drop pos = [] := List.drop_eq_nil_of_le (by omega)
      simp [D01.digitsAux, if_neg h, hdrop, D01.digitsSpec]

/-- The first/last accumulation fold, once the first digit has been seen. -/
theorem foldAcc_some (l : List Nat) (x y : Nat) :
    l.foldl (fun (st : Option Nat × Nat) digit =>
        ((if st.1.isNone then some digit else st.1), digit)) (some x, y)
      = (some x, l.getLastD y) := by
  induction l generalizing y with
  | nil => rfl
  | cons d ds ih =>
    rw [List.foldl_cons, List.getLastD_cons]
    exact ih d

/-- C4: word-mode extraction scans left to right, emits the first matching of
the 20 tokens at the cursor and advances by exactly one character (also when a
token matched, so overlapping tokens all fire), and the line contributes
`first * 10 + last` over the emitted digits, or 0 when none is emitted;
`"xtwone3four"` yields the digit sequence `[2, 1, 3, 4]`. -/
theorem claim_C4 :
    (∀ line : List Char, D01.extract_digits_with_words line = D01.digitsSpec line) ∧
    (∀ line : List Char,
      D01.extract_number line true
        = if D01.digitsSpec line = [] then 0
          else (D01.digitsSpec line).headD 0 * 10 + (D01.digitsSpec line).getLastD 0) ∧
    D01.extract_digits_with_words "xtwone3four".toList = [2, 1, 3, 4] := by
  have hext : ∀ line : List Char,
      D01.extract_digits_with_words line = D01.digitsSpec line := by
    intro line
    simpa using digitsAux_eq_spec line line.length 0 (by omega)
  refine ⟨hext, ?_, by decide⟩
  intro line
  cases h : D01.digitsSpec line with
  | nil => simp [D01.extract_number, hext, h]
  | cons d ds =>
    have hfold := foldAcc_some ds d d
    simp only [Option.isNone_iff_eq_none] at hfold
    simp [D01.extract_number, hext, h, List.foldl_cons, hfold, List.getLastD_cons]
    cases ds with
    | nil => simp
    | cons e es =>
      rw [List.getLast?_cons_cons]
      rw [← List.getLastD_eq_getLast?, ← List.getLastD_eq_getLast?, List.getLastD_cons,
        List.getLastD_cons]

/-! ## Claim C7 -/

/-- C7: differencing is the forward-difference step, and expanding
`[10,13,16,21,30,45]` once runs the difference pyramid
`[3,3,5,9,15]`, `[0,2,4,6]`, `[2,2,2]`, `[0,0]` and reconstructs
`[5,10,13,16,21,30,45,68]`, the new front of each level being
inner-front-minus-this-front and the new back being
inner-back-plus-this-back. -/
theorem claim_C7 :
    (∀ (x y : Int) (l : List Int),
      D09.deltas (x :: y :: l) = (y - x) :: D09.deltas (y :: l)) ∧
    (∀ (fuel : Nat) (a b : Int) (la lb : List Int) (rest : List (List Int)),
      D09.unwind (fuel + 1) ((a :: la) :: (b :: lb) :: rest)
        = D09.unwind fuel
            (((b - a) ::
              ((b :: lb) ++ [(b :: lb).getLast?.getD 0 + (a :: la).getLast?.getD 0])) :: rest)) ∧
    D09.deltas [10, 13, 16, 21, 30, 45] = [3, 3, 5, 9, 15] ∧
    D09.deltas [3, 3, 5, 9, 15] = [0, 2, 4, 6] ∧
    D09.deltas [0, 2, 4, 6] = [2, 2, 2] ∧
    D09.deltas [2, 2, 2] = [0, 0] ∧
    D09.expand_once [10, 13, 16, 21, 30, 45] = some [5, 10, 13, 16, 21, 30, 45, 68] := by
  refine ⟨fun x y l => rfl, ?_, by decide, by decide, by decide, by decide, by decide⟩
  intro fuel a b la lb rest
  obtain ⟨ta, hta⟩ : ∃ ta, (a :: la).getLast? = some ta := by
    have : (a :: la).getLast?.isSome := by
      rw [List.getLast?_isSome]
      simp
    exact Option.isSome_iff_exists.mp this
  obtain ⟨tb, htb⟩ : ∃ tb, (b :: lb).getLast? = some tb := by
    have : (b :: lb).getLast?.isSome := by
      rw [List.getLast?_isSome]
      simp
    exact Option.isSome_iff_exists.mp this
  simp [D09.unwind, hta, htb]

/-! ## Claim C5 -/

/-- When no hold time wins, the scan returns 0 whatever the fuel and start. -/
theorem numWaysAux_no_win (T d : Nat)
    (hno : ∀ h, h < T → ¬ d < h * (T - h)) :
    ∀ fuel start, D06.numWaysAux T d fuel start = 0 := by
  intro fuel
  induction fuel with
  | zero => intro start; rfl
  | succ fuel ih =>
    intro start
    by_cases h : start < T
    · have hwin : ¬ D06.calculate_distance T start > d := by
        have : D06.calculate_distance T start = start * (T - start) := by
          simp [D06.calculate_distance, Nat.le_of_lt h]
        rw [this]
        exact hno start h
      simp only [D06.numWaysAux, if_pos h, if_neg hwin]
      exact ih (start + 1)
    · simp [D06.numWaysAux, if_neg h]

/-- With enough fuel, the scan started at or below the least winning hold time
returns `T - 2 * h0 + 1` for that least winner `h0`. -/
theorem numWaysAux_finds (T d : Nat) (hex : ∃ h, h < T ∧ d < h * (T - h)) :
    ∀ fuel start, start ≤ Nat.find hex → T - start ≤ fuel →
      D06.numWaysAux T d fuel start = T - 2 * Nat.find hex + 1 := by
  have hP := Nat.find_spec hex
  intro fuel
  induction fuel with
  | zero =>
    intro start hs hf
    omega
  | succ fuel ih =>
    intro start hs hf
    have hsT : start < T := by omega
    by_cases heq : start = Nat.find hex
    · have hwin : D06.calculate_distance T start > d := by
        have : D06.calculate_distance T start = start * (T - start) := by
          simp [D06.calculate_distance, Nat.le_of_lt hsT]
        rw [this, heq]
        exact hP.2
      rw [show D06.numWaysAux T d (fuel + 1) start
          = if start < T then
              if D06.calculate_distance T start > d then T - 2 * start + 1
              else D06.numWaysAux T d fuel (start + 1)
            else 0 from rfl,
        if_pos hsT, if_pos hwin, heq]
    · have hlt : start < Nat.find hex := by omega
      have hnwin : ¬ D06.calculate_distance T start > d := by
        have hcd : D06.calculate_distance T start = start * (T - start) := by
          simp [D06.calculate_distance, Nat.le_of_lt hsT]
        rw [hcd]
        have := Nat.find_min hex hlt
        intro hcon
        exact this ⟨hsT, hcon⟩
      simp only [D06.numWaysAux, if_pos hsT, if_neg hnwin]
      exact ih (start + 1) (by omega) (by omega)

/-- The quadratic is at least its value at the left end of the window: for
`h0 ≤ x` and `x + h0 ≤ T`, `h0 * (T - h0) ≤ x * (T - x)`. -/
theorem quad_mono (T h0 x : Nat) (h1 : h0 ≤ x) (h2 : x + h0 ≤ T) :
    h0 * (T - h0) ≤ x * (T - x) := by
  have hx : x ≤ T := by omega
  have hh : h0 ≤ T := by omega
  have hz : (0 : Int) ≤ ((x : Int) - h0) * ((T : Int) - x - h0) := by
    apply mul_nonneg <;> omega
  have : (h0 : Int) * ((T : Int) - h0) ≤ (x : Int) * ((T : Int) - x) := by nlinarith
  have hcast : ((h0 * (T - h0) : Nat) : Int) ≤ ((x * (T - x) : Nat) : Int) := by
    push_cast [Nat.cast_sub hx, Nat.cast_sub hh]
    exact this
  exact_mod_cast hcast

/-- The winning hold times are exactly the interval from the least winner to
its mirror image. -/
theorem winningHolds_eq_Icc (T d : Nat) (hex : ∃ h, h < T ∧ d < h * (T - h)) :
    D06.winningHolds T d = Finset.Icc (Nat.find hex) (T - Nat.find hex) := by
  have hP := Nat.find_spec hex
  generalize hh0 : Nat.find hex = h0 at *
  have hmin' : ∀ x, x < T → d < x * (T - x) → h0 ≤ x := by
    intro x hxT hxW
    rw [← hh0]
    exact Nat.find_min' hex ⟨hxT, hxW⟩
  have hmin : ∀ y, y < h0 → ¬ (y < T ∧ d < y * (T - y)) := by
    intro y hy
    rw [← hh0] at hy
    exact Nat.find_min hex hy
  have h1 : 1 ≤ h0 := by
    by_contra hcon
    have h0z : h0 = 0 := by omega
    have := hP.2
    rw [h0z] at this
    simp at this
  have h2h0 : h0 + h0 ≤ T := by
    by_contra hcon
    push_neg at hcon
    have hk : T - h0 < h0 := by omega
    have hkT : T - h0 < T := by omega
    have hW : d < (T - h0) * (T - (T - h0)) := by
      have : T - (T - h0) = h0 := by omega
      rw [this, Nat.mul_comm]
      exact hP.2
    exact hmin (T - h0) hk ⟨hkT, hW⟩
  apply Finset.ext
  intro x
  simp only [D06.winningHolds, Finset.mem_filter, Finset.mem_range, Finset.mem_Icc,
    decide_eq_true_eq]
  constructor
  · rintro ⟨hxT, hxW⟩
    refine ⟨hmin' x hxT hxW, ?_⟩
    by_contra hcon
    push_neg at hcon
    have hy : T - x < h0 := by omega
    have hyT : T - x < T := by
      have : 1 ≤ x := by
        rcases Nat.eq_zero_or_pos x with h | h
        · exfalso; rw [h] at hxW; simp at hxW
        · exact h
      omega
    have hyW : d < (T - x) * (T - (T - x)) := by
      have : T - (T - x) = x := by omega
      rw [this, Nat.mul_comm]
      exact hxW
    exact hmin (T - x) hy ⟨hyT, hyW⟩
  · rintro ⟨hlo, hhi⟩
    have hxT : x < T := by omega
    refine ⟨hxT, ?_⟩
    calc d < h0 * (T - h0) := hP.2
      _ ≤ x * (T - x) := quad_mono T h0 x hlo (by omega)

/-- C5: `num_ways_to_win(T, d)` equals the exact number of hold times `h` in
`[0, T)` with `h * (T - h) > d`; in particular 4, 8 and 9 on the three sample
races. -/
theorem claim_C5 :
    (∀ T d : Nat, D06.num_ways_to_win T d = (D06.winningHolds T d).card) ∧
    D06.num_ways_to_win 7 9 = 4 ∧
    D06.num_ways_to_win 15 40 = 8 ∧
    D06.num_ways_to_win 30 200 = 9 := by
  refine ⟨?_, by decide, by decide, by decide⟩
  intro T d
  by_cases hex : ∃ h, h < T ∧ d < h * (T - h)
  · have hP := Nat.find_spec hex
    have h1 : 1 ≤ Nat.find hex := by
      rcases Nat.eq_zero_or_pos (Nat.find hex) with h | h
      · exfalso
        have := hP.2
        rw [h] at this
        simp at this
      · exact h
    rw [D06.num_ways_to_win, numWaysAux_finds T d hex T 0 (by omega) (by omega),
      winningHolds_eq_Icc T d hex, Nat.card_Icc]
    have h2h0 : Nat.find hex + Nat.find hex ≤ T := by
      by_contra hcon
      push_neg at hcon
      have hk : T - Nat.find hex < Nat.find hex := by omega
      have hkT : T - Nat.find hex < T := by omega
      have hW : d < (T - Nat.find hex) * (T - (T - Nat.find hex)) := by
        have : T - (T - Nat.find hex) = Nat.find hex := by omega
        rw [this, Nat.mul_comm]
        exact hP.2
      exact Nat.find_min hex hk ⟨hkT, hW⟩
    omega
  · push_neg at hex
    rw [D06.num_ways_to_win,
      numWaysAux_no_win T d (fun h hh => not_lt.mpr (hex h hh)) T 0]
    symm
    rw [Finset.card_eq_zero, Finset.eq_empty_iff_forall_not_mem]
    intro x hx
    simp only [D06.winningHolds, Finset.mem_filter, Finset.mem_range,
      decide_eq_true_eq] at hx
    have := hex x hx.1
    omega

/-! ## Claim C8 -/

/-- C8: on a non-degenerate grid and an in-range index, `neighbour` is `none`
exactly when the one-cell step in the direction leaves the grid bounds on
either axis, and otherwise the flat index of the adjacent cell; `neighbours`
lists exactly the in-bounds results in the declared direction order. -/
theorem mkIdx_eq (w a c : Nat) (b d : Int) (h1 : (a : Int) = b) (h2 : (c : Int) = d) :
    a * w + c = b.toNat * w + d.toNat := by
  have hb : b.toNat = a := by omega
  have hd : d.toNat = c := by omega
  rw [hb, hd]

theorem claim_C8 (g : Grid) (idx : Nat) (hw : 1 ≤ g.width) (hht : 1 ≤ g.height)
    (hidx : idx < g.width * g.height) :
    (∀ d : Dir8, g.neighbour idx d = specNeighbour g idx d) ∧
    g.neighbours idx = Dir8.all.filterMap (fun d => specNeighbour g idx d) := by
  obtain ⟨x, hxg⟩ : ∃ v, v = idx % g.width := ⟨_, rfl⟩
  obtain ⟨y, hyg⟩ : ∃ v, v = idx / g.width := ⟨_, rfl⟩
  have hx : x < g.width := by
    rw [hxg]
    exact Nat.mod_lt _ (by omega)
  have hy : y < g.height := by
    rw [hyg]
    exact Nat.div_lt_of_lt_mul hidx
  have hmain : ∀ d : Dir8, g.neighbour idx d = specNeighbour g idx d := by
    intro d
    cases d <;>
      simp only [Grid.neighbour, specNeighbour, dirOffset, Grid.to_point, Grid.to_index,
        ← hxg, ← hyg] <;>
      split_ifs <;>
      first
        | rfl
        | (simp only [Option.some.injEq]; apply mkIdx_eq <;> omega)
        | omega
  refine ⟨hmain, ?_⟩
  have hfun : (fun d => g.neighbour idx d) = (fun d => specNeighbour g idx d) :=
    funext hmain
  simp [Grid.neighbours, hfun]

/-- C8 witness: the 4-by-3 grid of the tests at index 5 going north. -/
theorem claim_C8_witness :
    (1 ≤ 4) ∧ (1 ≤ 3) ∧ (5 < 4 * 3) ∧
    (Grid.mk 4 3).neighbour 5 Dir8.North = specNeighbour (Grid.mk 4 3) 5 Dir8.North ∧
    (Grid.mk 4 3).neighbours 5 = Dir8.all.filterMap (fun d => specNeighbour (Grid.mk 4 3) 5 d) :=
  ⟨by decide, by decide, by decide,
    (claim_C8 (Grid.mk 4 3) 5 (by decide) (by decide) (by decide)).1 Dir8.North,
    (claim_C8 (Grid.mk 4 3) 5 (by decide) (by decide) (by decide)).2⟩

/-! ## Claim C9 -/

/-- The maximal run of characters satisfying `f` from the cursor. -/
def digitRun (s : StringScanner) : List Char :=
  (s.chars.drop s.current_position).takeWhile (fun c => c.isDigit)

/-- Decimal value of a digit run (the value `from_str` parses). -/
def digitsVal (l : List Char) : Nat :=
  l.foldl (fun acc c => acc * 10 + (c.toNat - '0'.toNat)) 0

/-- `from_str` on a digit run: `none` exactly on the empty run or a value out
of range. -/
theorem fromStrUnsigned_eq (bound : Nat) (l : List Char) :
    fromStrUnsigned bound l
      = if l = [] ∨ bound ≤ digitsVal l then none else some (digitsVal l) := by
  rw [show fromStrUnsigned bound l
      = (if l.isEmpty then none
         else if digitsVal l < bound then some (digitsVal l) else none) from rfl]
  by_cases h1 : l = []
  · simp [h1]
  · have hne : l.isEmpty = false := by simpa [List.isEmpty_iff] using h1
    rw [hne]
    simp only [Bool.false_eq_true, if_false]
    by_cases h2 : digitsVal l < bound
    · have hcond : ¬ (l = [] ∨ bound ≤ digitsVal l) := by
        rintro (h | h)
        · exact h1 h
        · omega
      rw [if_pos h2, if_neg hcond]
    · have hcond : l = [] ∨ bound ≤ digitsVal l := Or.inr (by omega)
      rw [if_neg h2, if_pos hcond]

/-- The `read_while` loop consumes exactly the maximal satisfying prefix of the
unread suffix and advances the cursor past it (the fuel of
`s.chars.length - s.current_position` always suffices). -/
theorem readWhileAux_eq (f : Char → Bool) (fuel : Nat) :
    ∀ (s : StringScanner) (acc : List Char),
      s.chars.length - s.current_position ≤ fuel →
      readWhileAux f fuel s acc
        = (acc ++ (s.chars.drop s.current_position).takeWhile f,
           { s with current_position :=
               s.current_position + ((s.chars.drop s.current_position).takeWhile f).length }) := by
  induction fuel with
  | zero =>
    intro s acc hfuel
    have hdrop : s.chars.drop s.current_position = [] :=
      List.drop_eq_nil_of_le (by omega)
    simp [readWhileAux, hdrop]
  | succ fuel ih =>
    intro s acc hfuel
    by_cases hfin : s.current_position < s.chars.length
    · have hfinB : s.is_finished = false := by
        simp [StringScanner.is_finished]
        omega
      have hpeek : s.peek = some (s.chars[s.current_position]) := by
        simp [StringScanner.peek, hfinB, List.get?_eq_getElem?,
          List.getElem?_eq_getElem hfin]
      have hdrop : s.chars.drop s.current_position
          = s.chars[s.current_position] :: s.chars.drop (s.current_position + 1) :=
        List.drop_eq_getElem_cons hfin
      have hadv : s.advance = { s with current_position := s.current_position + 1 } := by
        simp [StringScanner.advance, hfinB]
      rw [show readWhileAux f (fuel + 1) s acc
          = if s.is_finished then (acc, s)
            else match s.peek with
              | some c => if f c then readWhileAux f fuel s.advance (acc ++ [c]) else (acc, s)
              | none => (acc, s) from rfl]
      rw [hfinB, hpeek]
      simp only [Bool.false_eq_true, if_false]
      by_cases hfc : f (s.chars[s.current_position])
      · have hfuel2 : ({ s with current_position := s.current_position + 1 }
              : StringScanner).chars.length
            - ({ s with current_position := s.current_position + 1 }
              : StringScanner).current_position ≤ fuel := by
          show s.chars.length - (s.current_position + 1) ≤ fuel
          omega
        rw [if_pos hfc, hadv,
          ih { s with current_position := s.current_position + 1 }
            (acc ++ [s.chars[s.current_position]]) hfuel2]
        dsimp only
        have htake : List.takeWhile f (List.drop s.current_position s.chars)
            = s.chars[s.current_position]
              :: List.takeWhile f (List.drop (s.current_position + 1) s.chars) := by
          rw [hdrop, List.takeWhile_cons]
          simp [hfc]
        rw [htake]
        simp
        all_goals omega
      · rw [if_neg hfc]
        have htake : (s.chars.drop s.current_position).takeWhile f = [] := by
          rw [hdrop, List.takeWhile_cons]
          simp [hfc]
        rw [htake]
        simp
    · have hdrop : s.chars.drop s.current_position = [] :=
        List.drop_eq_nil_of_le (by omega)
      have hfinB : s.is_finished = true := by
        simp [StringScanner.is_finished]
        omega
      rw [show readWhileAux f (fuel + 1) s acc
          = if s.is_finished then (acc, s)
            else match s.peek with
              | some c => if f c then readWhileAux f fuel s.advance (acc ++ [c]) else (acc, s)
              | none => (acc, s) from rfl]
      rw [hfinB]
      simp [hdrop]

/-- `read_while` denotation. -/
theorem read_while_eq (s : StringScanner) (f : Char → Bool) :
    s.read_while f
      = ((s.chars.drop s.current_position).takeWhile f,
         { s with current_position :=
             s.current_position + ((s.chars.drop s.current_position).takeWhile f).length }) := by
  have := readWhileAux_eq f (s.chars.length - s.current_position) s [] (by omega)
  simpa [StringScanner.read_while] using this

/-- C9: `expect_uint` consumes the maximal run of ASCII digits at the cursor
(leaving the cursor right after the run) and returns its decimal value; it
fails with `NotAUint` carrying the cursor position exactly when the run is
empty or the value does not fit the type's range; on `"20 January"` it yields
20 and leaves the cursor at position 2. -/
theorem claim_C9 :
    (∀ (s : StringScanner) (bound : Nat),
      (s.expect_uint bound).2.current_position
          = s.current_position + (digitRun s).length ∧
      (s.expect_uint bound).2.chars = s.chars ∧
      (s.expect_uint bound).1
        = if digitRun s = [] ∨ bound ≤ digitsVal (digitRun s) then
            Except.error
              (StringScannerError.NotAUint (s.current_position + (digitRun s).length))
          else Except.ok (digitsVal (digitRun s))) ∧
    ((StringScanner.new "20 January".toList).expect_uint (2 ^ 32)).1 = Except.ok 20 ∧
    ((StringScanner.new "20 January".toList).expect_uint (2 ^ 32)).2.current_position = 2 := by
  refine ⟨?_, by rfl, by rfl⟩
  intro s bound
  have hmain : s.expect_uint bound
      = (if digitRun s = [] ∨ bound ≤ digitsVal (digitRun s) then
            Except.error
              (StringScannerError.NotAUint (s.current_position + (digitRun s).length))
          else Except.ok (digitsVal (digitRun s)),
         { s with current_position := s.current_position + (digitRun s).length }) := by
    have hrw := read_while_eq s (fun c => c.isDigit)
    rw [StringScanner.expect_uint, hrw]
    simp only [digitRun, fromStrUnsigned_eq]
    split_ifs with h
    · rfl
    · rfl
  rw [hmain]
  by_cases h : digitRun s = [] ∨ bound ≤ digitsVal (digitRun s)
  · simp [h]
  · simp [h]

/-! ## Claim C10 -/

/-- The walker loop counts exactly the steps of the specification walk: a
`some n` result means `n` exceeds the entry step count, the walk of
`n - steps` further steps from the current node satisfies the predicate, and
no shorter nonempty walk from it does. -/
theorem calcDistAux_spec (m : D08.Map) (pred : String → Bool) :
    ∀ (fuel : Nat) (cur : String) (idx steps n : Nat),
      D08.calcDistAux m pred fuel cur idx steps = some n →
      steps < n ∧
      (∃ v, D08.walkIdx m cur idx (n - steps) = some v ∧ pred v = true) ∧
      (∀ j, 1 ≤ j → j < n - steps →
        ∀ v, D08.walkIdx m cur idx j = some v → pred v = false) := by
  intro fuel
  induction fuel with
  | zero => intro cur idx steps n h; exact absurd h (by simp [D08.calcDistAux])
  | succ fuel ih =>
    intro cur idx steps n h
    rw [show D08.calcDistAux m pred (fuel + 1) cur idx steps
        = match D08.stepOnce m cur idx with
          | none => none
          | some nxt =>
            if pred nxt then some (steps + 1)
            else D08.calcDistAux m pred fuel nxt (idx + 1) (steps + 1) from rfl] at h
    cases hstep : D08.stepOnce m cur idx with
    | none => rw [hstep] at h; exact absurd h (by simp)
    | some nxt =>
      rw [hstep] at h
      dsimp only at h
      have hwalk1 : D08.walkIdx m cur idx 1 = some nxt := by
        simp [D08.walkIdx, hstep]
      by_cases hp : pred nxt
      · rw [if_pos hp] at h
        have hn : n = steps + 1 := by
          have := Option.some.inj h
          omega
        subst hn
        refine ⟨by omega, ⟨nxt, ?_, hp⟩, ?_⟩
        · have : steps + 1 - steps = 1 := by omega
          rw [this]
          exact hwalk1
        · intro j hj1 hj2 v hv
          omega
      · rw [if_neg hp] at h
        obtain ⟨hlt, ⟨v, hv, hpv⟩, hmin⟩ := ih nxt (idx + 1) (steps + 1) n h
        have hstepwalk : ∀ k, D08.walkIdx m cur idx (k + 1)
            = D08.walkIdx m nxt (idx + 1) k := by
          intro k
          simp [D08.walkIdx, hstep]
        refine ⟨by omega, ⟨v, ?_, hpv⟩, ?_⟩
        · have : n - steps = (n - (steps + 1)) + 1 := by omega
          rw [this, hstepwalk]
          exact hv
        · intro j hj1 hj2 w hw
          rcases Nat.eq_or_lt_of_le hj1 with hj | hj

          · rw [← hj] at hw
            rw [hwalk1] at hw
            have : w = nxt := (Option.some.inj hw).symm
            rw [this]
            simp [hp]
          · have hj' : j = (j - 1) + 1 := by omega
            rw [hj', hstepwalk] at hw
            exact hmin (j - 1) (by omega) (by omega) w hw

/-- C10: the walker evaluates its termination predicate only after stepping:
whenever `calculate_distance` returns (here: within any fuel), the step count
`n` satisfies `n ≥ 1`, the walk of `n` steps from the start satisfies the
predicate, and no walk of `k` steps with `1 ≤ k < n` does — so even when the
start node itself satisfies the predicate the result counts the steps to the
next satisfying node and is never 0. -/
theorem claim_C10 (m : D08.Map) (fuel : Nat) (start_id : String)
    (pred : String → Bool) (n : Nat)
    (h : D08.calculate_distance m fuel start_id pred = some n) :
    1 ≤ n ∧
    (∃ v, D08.walkN m start_id n = some v ∧ pred v = true) ∧
    (∀ j, 1 ≤ j → j < n →
      ∀ v, D08.walkN m start_id j = some v → pred v = false) := by
  obtain ⟨hlt, hsat, hmin⟩ := calcDistAux_spec m pred fuel start_id 0 0 n h
  have hn : n - 0 = n := by omega
  rw [hn] at hsat
  exact ⟨by omega, hsat, fun j hj1 hj2 v hv => hmin j hj1 (by omega) v hv⟩

/-- C10 witness: the two-node test map reaches `"ZZZ"` from `"AAA"` in 2
steps. -/
theorem claim_C10_witness :
    1 ≤ 2 ∧
    (∃ v, D08.walkN D08.simpleMap "AAA" 2 = some v ∧ (v == "ZZZ") = true) ∧
    (∀ j, 1 ≤ j → j < 2 →
      ∀ v, D08.walkN D08.simpleMap "AAA" j = some v → (v == "ZZZ") = false) :=
  claim_C10 D08.simpleMap 10 "AAA" (fun s => s == "ZZZ") 2 (by rfl)

/-! ## Claim C6 -/

namespace D07

theorem htMax_choice (a b : HandType) : htMax a b = a ∨ htMax a b = b := by
  rw [htMax]
  split_ifs <;> simp

theorem rank_le_htMax_left (a b : HandType) : a.rank ≤ (htMax a b).rank := by
  rw [htMax]
  split_ifs with h
  · exact h
  · exact Nat.le_refl _

theorem rank_le_htMax_right (a b : HandType) : b.rank ≤ (htMax a b).rank := by
  rw [htMax]
  split_ifs with h
  · exact Nat.le_refl _
  · omega

theorem le_foldl_htMax_init (l : List HandType) :
    ∀ e, e.rank ≤ (l.foldl htMax e).rank := by
  induction l with
  | nil => intro e; exact Nat.le_refl _
  | cons x xs ih =>
    intro e
    exact Nat.le_trans (rank_le_htMax_left e x) (ih (htMax e x))

theorem le_foldl_htMax_mem (l : List HandType) :
    ∀ e x, x ∈ l → x.rank ≤ (l.foldl htMax e).rank := by
  induction l with
  | nil => intro e x hx; exact absurd hx (by simp)
  | cons y ys ih =>
    intro e x hx
    rcases List.mem_cons.mp hx with h | h
    · rw [h]
      exact Nat.le_trans (rank_le_htMax_right e y) (le_foldl_htMax_init ys (htMax e y))
    · exact ih (htMax e y) x h

theorem foldl_htMax_choice (l : List HandType) :
    ∀ e, l.foldl htMax e = e ∨ l.foldl htMax e ∈ l := by
  induction l with
  | nil => intro e; left; rfl
  | cons y ys ih =>
    intro e
    rcases ih (htMax e y) with h | h
    · rcases htMax_choice e y with h2 | h2
      · left; rw [List.foldl_cons, h, h2]
      · right; rw [List.foldl_cons, h, h2]; simp
    · right
      rw [List.foldl_cons]
      exact List.mem_cons_of_mem y h

theorem handTypeRank_inj (a b : HandType) (h : a.rank = b.rank) : a = b := by
  cases a <;> cases b <;> first | rfl | simp [HandType.rank] at h

theorem foldl_htMax_ext (l1 l2 : List HandType) (e : HandType)
    (hmem : ∀ x, x ∈ l1 ↔ x ∈ l2) : l1.foldl htMax e = l2.foldl htMax e := by
  apply handTypeRank_inj
  apply Nat.le_antisymm
  · rcases foldl_htMax_choice l1 e with h | h
    · rw [h]; exact le_foldl_htMax_init l2 e
    · exact le_foldl_htMax_mem l2 e _ ((hmem _).mp h)
  · rcases foldl_htMax_choice l2 e with h | h
    · rw [h]; exact le_foldl_htMax_init l1 e
    · exact le_foldl_htMax_mem l1 e _ ((hmem _).mpr h)

theorem non_jokers_not_joker : ∀ l ∈ Label.non_jokers, l.is_joker = false := by
  decide

/-- A label list with no wildcard has itself as the only substitution. -/
theorem subs_no_joker (h : List Label)
    (hfind : position (fun l => l.is_joker) h = none) : substitutions h = [h] := by
  induction h with
  | nil => rfl
  | cons c rest ih =>
    rw [position] at hfind
    by_cases hc : c.is_joker
    · rw [if_pos hc] at hfind
      exact absurd hfind (by simp)
    · rw [if_neg hc] at hfind
      have hrest : position (fun l => l.is_joker) rest = none :=
        Option.map_eq_none.mp hfind
      rw [substitutions, if_neg (by simpa using hc), ih hrest]
      rfl

/-- Substituting through the first wildcard position: membership in the
substitution set factors through replacing that position by each non-wildcard
label. -/
theorem subs_of_position (h : List Label) :
    ∀ i, position (fun l => l.is_joker) h = some i →
      (∀ x, x ∈ substitutions h ↔
        ∃ l ∈ Label.non_jokers, x ∈ substitutions (h.set i l)) ∧
      1 ≤ h.count Label.Jack ∧
      (∀ l ∈ Label.non_jokers,
        (h.set i l).count Label.Jack = h.count Label.Jack - 1) := by
  induction h with
  | nil => intro i hi; exact absurd hi (by simp [position])
  | cons c rest ih =>
    intro i hi
    rw [position] at hi
    by_cases hc : c.is_joker
    · rw [if_pos hc] at hi
      have hi0 : i = 0 := by
        have := Option.some.inj hi
        omega
      subst hi0
      have hcj : c = Label.Jack := by
        simpa [Label.is_joker] using hc
      subst hcj
      refine ⟨?_, ?_, ?_⟩
      · intro x
        rw [substitutions, if_pos (by simp [Label.is_joker])]
        rw [List.mem_flatMap]
        constructor
        · rintro ⟨l, hl, hx⟩
          refine ⟨l, hl, ?_⟩
          rw [show (Label.Jack :: rest).set 0 l = l :: rest from rfl]
          rw [substitutions, if_neg (by simp [non_jokers_not_joker l hl])]
          exact hx
        · rintro ⟨l, hl, hx⟩
          refine ⟨l, hl, ?_⟩
          rw [show (Label.Jack :: rest).set 0 l = l :: rest from rfl] at hx
          rw [substitutions, if_neg (by simp [non_jokers_not_joker l hl])] at hx
          exact hx
      · rw [List.count_cons_self]
        omega
      · intro l hl
        rw [show (Label.Jack :: rest).set 0 l = l :: rest from rfl]
        have hlj : l ≠ Label.Jack := by
          have := non_jokers_not_joker l hl
          simpa [Label.is_joker] using this
        rw [List.count_cons_of_ne (fun hx => hlj hx.symm) rest, List.count_cons_self]
        omega
    · rw [if_neg hc] at hi
      obtain ⟨j, hj, hij⟩ := Option.map_eq_some'.mp hi
      obtain ⟨hiff, hcount, hset⟩ := ih j hj
      have hcj : c ≠ Label.Jack := by
        simpa [Label.is_joker] using hc
      have hcnt : (c :: rest).count Label.Jack = rest.count Label.Jack :=
        List.count_cons_of_ne (fun hx => hcj hx.symm) rest
      refine ⟨?_, by omega, ?_⟩
      · intro x
        rw [substitutions, if_neg (by simpa using hc), List.mem_map]
        constructor
        · rintro ⟨t, ht, hx⟩
          obtain ⟨l, hl, htl⟩ := (hiff t).mp ht
          refine ⟨l, hl, ?_⟩
          rw [← hij, show (c :: rest).set (j + 1) l = c :: rest.set j l from rfl]
          rw [substitutions, if_neg (by simpa using hc), List.mem_map]
          exact ⟨t, htl, hx⟩
        · rintro ⟨l, hl, hx⟩
          rw [show (c :: rest).set (i) l = (c :: rest).set (j + 1) l by rw [hij],
            show (c :: rest).set (j + 1) l = c :: rest.set j l from rfl] at hx
          rw [substitutions, if_neg (by simpa using hc), List.mem_map] at hx
          obtain ⟨t, ht, hx⟩ := hx
          exact ⟨t, (hiff t).mpr ⟨l, hl, ht⟩, hx⟩
      · intro l hl
        rw [← hij, show (c :: rest).set (j + 1) l = c :: rest.set j l from rfl,
          List.count_cons_of_ne (fun hx => hcj hx.symm), hcnt, hset l hl]

theorem mem_foldl_cons (f : Label → List Label) :
    ∀ (as : List Label) (init : List (List Label)) (x : List Label),
      x ∈ as.foldl (fun acc a => f a :: acc) init ↔ x ∈ init ∨ ∃ a ∈ as, x = f a := by
  intro as
  induction as with
  | nil => intro init x; simp
  | cons a as ih =>
    intro init x
    rw [List.foldl_cons, ih]
    simp only [List.mem_cons, List.mem_cons]
    constructor
    · rintro ((h | h) | ⟨b, hb, rfl⟩)
      · right; exact ⟨a, Or.inl rfl, h⟩
      · left; exact h
      · right; exact ⟨b, Or.inr hb, rfl⟩
    · rintro (h | ⟨b, (rfl | hb), rfl⟩)
      · left; right; exact h
      · left; left; rfl
      · right; exact ⟨b, hb, rfl⟩

theorem wlMeasure_cons (h : List Label) (t : List (List Label)) :
    wlMeasure (h :: t) = 13 ^ (h.count Label.Jack) + wlMeasure t := by
  simp [wlMeasure]

theorem wlMeasure_foldl (hand : List Label) (i : Nat) :
    ∀ (as : List Label) (init : List (List Label)),
      wlMeasure (as.foldl (fun acc l => replaced hand i l :: acc) init)
        = wlMeasure init
          + (as.map (fun l => 13 ^ ((replaced hand i l).count Label.Jack))).sum := by
  intro as
  induction as with
  | nil => intro init; simp
  | cons a as ih =>
    intro init
    rw [List.foldl_cons, ih, wlMeasure_cons]
    simp
    all_goals omega

theorem sum_map_const (f : Label → Nat) (v : Nat) :
    ∀ as : List Label, (∀ l ∈ as, f l = v) → (as.map f).sum = as.length * v := by
  intro as
  induction as with
  | nil => intro hv; simp
  | cons a as ih =>
    intro hv
    rw [List.map_cons, List.sum_cons, ih (fun l hl => hv l (List.mem_cons_of_mem a hl)),
      hv a (List.mem_cons_self a as), List.length_cons, Nat.succ_mul]
    omega

/-- The worklist loop, run with fuel at least its measure, collects exactly the
substitution sets of the worklist entries (appended to the accumulator). -/
theorem expandLoop_mem (x : List Label) :
    ∀ (fuel : Nat) (wl concrete : List (List Label)), wlMeasure wl ≤ fuel →
      (x ∈ expandLoop fuel wl concrete ↔
        x ∈ concrete ∨ ∃ h ∈ wl, x ∈ substitutions h) := by
  intro fuel
  induction fuel with
  | zero =>
    intro wl concrete hle
    have hwl : wl = [] := by
      cases wl with
      | nil => rfl
      | cons h t =>
        exfalso
        have h1 : 1 ≤ 13 ^ (h.count Label.Jack) := Nat.one_le_pow' _ 12
        have hm := wlMeasure_cons h t
        omega
    subst hwl
    rw [show expandLoop 0 [] concrete = concrete from rfl]
    simp
  | succ fuel ih =>
    intro wl concrete hle
    cases wl with
    | nil =>
      rw [show expandLoop (fuel + 1) [] concrete = concrete from rfl]
      simp
    | cons hand rest =>
      rw [show expandLoop (fuel + 1) (hand :: rest) concrete
          = match position (fun l => l.is_joker) hand with
            | some i => expandLoop fuel
                (Label.non_jokers.foldl (fun acc l => replaced hand i l :: acc) rest)
                concrete
            | none => expandLoop fuel rest (concrete ++ [hand]) from rfl]
      cases hpos : position (fun l => l.is_joker) hand with
      | none =>
        have h1 : 1 ≤ 13 ^ (hand.count Label.Jack) := Nat.one_le_pow' _ 12
        have hm := wlMeasure_cons hand rest
        rw [ih rest (concrete ++ [hand]) (by omega)]
        rw [show (∃ h ∈ hand :: rest, x ∈ substitutions h)
            ↔ (x ∈ substitutions hand ∨ ∃ h ∈ rest, x ∈ substitutions h) by
          simp [List.mem_cons]]
        rw [subs_no_joker hand hpos]
        simp [List.mem_append]
        tauto
      | some i =>
        obtain ⟨hiff, hcnt1, hset⟩ := subs_of_position hand i hpos
        have hm := wlMeasure_cons hand rest
        have hmf := wlMeasure_foldl hand i Label.non_jokers rest
        have hsum : (Label.non_jokers.map
              (fun l => 13 ^ ((replaced hand i l).count Label.Jack))).sum
            = Label.non_jokers.length * 13 ^ (hand.count Label.Jack - 1) :=
          sum_map_const _ _ _ (fun l hl => by
            rw [show replaced hand i l = hand.set i l from rfl, hset l hl])
        have hlen : Label.non_jokers.length = 12 := rfl
        have h13 : 13 ^ (hand.count Label.Jack)
            = 13 * 13 ^ (hand.count Label.Jack - 1) := by
          conv_lhs =>
            rw [show hand.count Label.Jack = (hand.count Label.Jack - 1) + 1 from by omega]
          rw [pow_succ]
          omega
        have h1 : 1 ≤ 13 ^ (hand.count Label.Jack - 1) := Nat.one_le_pow' _ 12
        rw [ih _ concrete (by rw [hmf, hsum, hlen]; omega)]
        have hstep : (∃ h ∈ Label.non_jokers.foldl
              (fun acc l => replaced hand i l :: acc) rest, x ∈ substitutions h)
            ↔ (∃ h ∈ hand :: rest, x ∈ substitutions h) := by
          constructor
          · rintro ⟨h, hh, hx⟩
            rcases (mem_foldl_cons _ _ _ h).mp hh with h1m | ⟨l, hl, rfl⟩
            · exact ⟨h, List.mem_cons_of_mem _ h1m, hx⟩
            · exact ⟨hand, List.mem_cons_self _ _, (hiff x).mpr ⟨l, hl, hx⟩⟩
          · rintro ⟨h, hh, hx⟩
            rcases List.mem_cons.mp hh with rfl | h1m
            · obtain ⟨l, hl, hx2⟩ := (hiff x).mp hx
              exact ⟨replaced h i l,
                (mem_foldl_cons _ _ _ _).mpr (Or.inr ⟨l, hl, rfl⟩), hx2⟩
            · exact ⟨h, (mem_foldl_cons _ _ _ _).mpr (Or.inl h1m), hx⟩
        rw [hstep]

/-- The worklist expansion produces exactly the cartesian substitution set. -/
theorem possible_hands_mem (h x : List Label) :
    x ∈ possible_hands h ↔ x ∈ substitutions h := by
  rw [possible_hands, expandLoop_mem x (wlMeasure [h]) [h] [] (Nat.le_refl _)]
  simp

end D07

set_option maxRecDepth 4000 in
/-- C6: for every hand, the wildcard-mode classification is the maximum
category (in the order high-card through five-of-a-kind) over all hands
obtained by substituting every wildcard by every non-wildcard label;
`"T55J5"` is three-of-a-kind in basic mode and four-of-a-kind in wildcard
mode, and the five-hand sample set scores 6440 (basic) and 5905
(wildcard). -/
theorem claim_C6 :
    (∀ h : List D07.Label,
      D07.best_hand_type h
        = ((D07.substitutions h).map D07.hand_type).foldl D07.htMax
            D07.HandType.HighCard) ∧
    D07.hand_type [.Ten, .Five, .Five, .Jack, .Five] = D07.HandType.ThreeOfAKind ∧
    D07.best_hand_type [.Ten, .Five, .Five, .Jack, .Five]
      = D07.HandType.FourOfAKind ∧
    D07.total_score D07.CompareType.Basic D07.sampleHands = 6440 ∧
    D07.total_score D07.CompareType.Joker D07.sampleHands = 5905 := by
  refine ⟨?_, by decide, by decide, by decide, by decide⟩
  intro h
  rw [D07.best_hand_type]
  apply D07.foldl_htMax_ext
  intro x
  simp only [List.mem_map]
  constructor
  · rintro ⟨y, hy, rfl⟩
    exact ⟨y, (D07.possible_hands_mem h y).mp hy, rfl⟩
  · rintro ⟨y, hy, rfl⟩
    exact ⟨y, (D07.possible_hands_mem h y).mpr hy, rfl⟩

end Advent
